import Mathlib

/-!
# Verification of the Minecraft chat-log extraction pipeline

Shallow embedding of the extraction core of
`Minecraft_log_extraction_system.py` (class `LogProcessor` and the
worker/post-pass methods of `ChatExtractorApp`), together with proofs
settling the frozen claims about it.

Modelling conventions:
* Python `str` values are modelled as `List Char`; byte strings as
  `List Nat` (each entry one byte).
* Python floats (the encoding scores and the chardet confidence) are
  modelled as `ℚ`.
* File-system and codec behaviour that the program only observes
  (bytes of the file, results of `chardet.detect`, the decoded form of
  the sample / of the file lines under each candidate encoding) is
  supplied through an explicit environment, so every function here is
  a pure function of its environment.
* The shared `stop_requested` flag is modelled as a function
  `Nat → Bool` from poll indices to the flag value observed at that
  poll; each modelled poll site consumes one index.
-/

/-- Python whitespace as stripped by `str.strip()`, restricted to the
ASCII whitespace characters (the only ones the development evaluates). -/
def isPySpace (c : Char) : Bool :=
  c = ' ' || c = '\t' || c = '\n' || c = '\r' || c = '\x0b' || c = '\x0c'

/-- Python `str.strip()`: drop whitespace from both ends. -/
def pyStrip (l : List Char) : List Char :=
  ((l.dropWhile isPySpace).reverse.dropWhile isPySpace).reverse

/-- The suffix of `s` after the first occurrence of `p`, if `p` occurs in
`s`; models Python `s.split(p, 1)[1]` guarded by `p in s`. -/
def afterFirst (p : List Char) : List Char → Option (List Char)
  | [] => if p.isPrefixOf ([] : List Char) then some [] else none
  | c :: t =>
    if p.isPrefixOf (c :: t) then some ((c :: t).drop p.length)
    else afterFirst p t

/-- Python `p in s` (substring containment). -/
def containsSub (p s : List Char) : Bool := (afterFirst p s).isSome

/-- The chat-content test of lines 261/348: the trimmed content begins
with a chevron or an opening bracket. -/
def startsChat : List Char → Bool
  | [] => false
  | c :: _ => c = '<' || c = '['

/-- First fixed log marker (`self.prefixes[0]`, line 83 of the source). -/
def pfx1 : List Char :=
  "[Server thread/INFO] [net.minecraft.server.MinecraftServer/]:".data

/-- Second fixed log marker (`self.prefixes[1]`, line 84 of the source). -/
def pfx2 : List Char := "[Server thread/INFO] [Console/]:".data

/-- The ordered marker list `self.prefixes`. -/
def pfxList : List (List Char) := [pfx1, pfx2]

/-- The inner `for prefix in self.prefixes` loop of lines 255-263 (and
345-350): on the first marker contained in the line, take the content
after it, strip it, and if it starts with `<` or `[` append the stripped
original line; then break. -/
def scanPfx : List (List Char) → List Char → List (List Char) → List (List Char)
  | [], _, acc => acc
  | p :: ps, line, acc =>
    match afterFirst p line with
    | some rest => if startsChat (pyStrip rest) then acc ++ [pyStrip line] else acc
    | none => scanPfx ps line acc

/-- Per-line extraction step: run the marker loop on one line. -/
def extractLine (line : List Char) (acc : List (List Char)) : List (List Char) :=
  scanPfx pfxList line acc

/-- The pure per-file extraction (the marker-matching part of the line
loop, ignoring progress and decode-error accounting). -/
def extractLines (lines : List (List Char)) : List (List Char) :=
  lines.foldl (fun acc l => extractLine l acc) []

/-- Whether a line is extracted: the first marker (in list order)
contained in the line has content starting with `<` or `[`. -/
def matchLine (line : List Char) : Bool :=
  match pfxList.find? (fun p => containsSub p line) with
  | some p => startsChat (pyStrip ((afterFirst p line).getD []))
  | none => false

/-- A line containing the Unicode replacement character (line 266 / 338:
`'�' in line`). -/
def hasRep (l : List Char) : Bool := l.contains '�'

/-- The ordered fallback candidate list `self.backup_encodings`
(lines 87-92 of the source). -/
def backupEncodings : List String :=
  ["utf-8", "gbk", "gb2312", "gb18030", "big5",
   "latin1", "cp1252", "utf-16", "utf-16-le", "utf-16-be",
   "iso-8859-1", "iso-8859-15", "euc-kr", "shift_jis",
   "cp932", "cp936", "cp949", "cp950", "ascii"]

/-- The BOM table `bom_encodings` of `detect_encoding` (lines 120-126),
in Python dict insertion order, which is also iteration order. -/
def bomTable : List (List Nat × String) :=
  [([0xEF, 0xBB, 0xBF], "utf-8"),
   ([0xFF, 0xFE], "utf-16-le"),
   ([0xFE, 0xFF], "utf-16-be"),
   ([0xFF, 0xFE, 0x00, 0x00], "utf-32-le"),
   ([0x00, 0x00, 0xFE, 0xFF], "utf-32-be")]

/-- The BOM scan of lines 129-134: over the table in insertion order,
return the encoding of the first BOM the 4-byte header starts with. -/
def detectBom (header : List Nat) : Option String :=
  (bomTable.find? (fun be => be.1.isPrefixOf header)).map (fun be => be.2)

/-- Model of Python `str.isprintable()`.  Exact on code points below
U+0100 (C0 controls, DEL, C1 controls, NBSP and the soft hyphen are the
non-printable ones there) and at U+FFFD (category So, printable).  Code
points above U+00FF are uniformly treated as printable; the development
only evaluates this function on Latin-1 text and U+FFFD, where it agrees
with Python. -/
def pyIsPrintable (c : Char) : Bool :=
  if c.toNat < 0x20 then false
  else if 0x7F ≤ c.toNat && c.toNat ≤ 0xA0 then false
  else if c.toNat = 0xAD then false
  else true

/-- The character test of line 176: printable, or one of `\r`, `\n`, `\t`. -/
def printableish (c : Char) : Bool :=
  pyIsPrintable c || c = '\r' || c = '\n' || c = '\t'

/-- The score computed for one decoded sample in `select_best_encoding`
(lines 173-186): ratio of printable-ish characters (0 for an empty
decode), plus 0.3 when one of the log markers occurs in the decode. -/
def scoreOf (d : List Char) : ℚ :=
  (if d.isEmpty then 0 else ((d.countP printableish : ℚ) / (d.length : ℚ))) +
    (if pfxList.any (fun p => containsSub p d) then 3/10 else 0)

/-- Score of candidate `e` given the decoded samples `sd`. -/
def candScore (sd : String → List Char) (e : String) : ℚ := scoreOf (sd e)

/-- The candidate loop of `select_best_encoding` (lines 167-196): running
best encoding and best score, early return of the current best when the
stop flag is observed, update on a strictly better score.  `sd e` is the
result of `sample_data.decode(e, errors='ignore')`. -/
def selectLoop (stop : Nat → Bool) (sd : String → List Char) :
    Nat → List String → String → ℚ → String × Nat
  | c, [], best, _ => (best, c)
  | c, e :: rest, best, bs =>
    if stop c then (best, c + 1)
    else
      if scoreOf (sd e) > bs then selectLoop stop sd (c + 1) rest e (scoreOf (sd e))
      else selectLoop stop sd (c + 1) rest best bs

/-- `select_best_encoding` (lines 162-199): best encoding starts as
`utf-8` with best score 0. -/
def selectBestEncoding (stop : Nat → Bool) (sd : String → List Char) (c : Nat) :
    String × Nat :=
  selectLoop stop sd c backupEncodings "utf-8" 0

/-- Python `bytes.decode('ascii', errors='ignore')`, the decode call of
line 173 instantiated at the `ascii` candidate: bytes at or above 0x80
are dropped. -/
def pyDecodeAsciiIgnore (bs : List Nat) : List Char :=
  (bs.filter (fun b => b < 128)).map Char.ofNat

/-- Modelled from the spec: the spec sentence says the sample is decoded
"permissively (invalid bytes replaced, never raising)"; this is that
replacement-mode ascii decode (invalid bytes become U+FFFD), stated for
comparison with `pyDecodeAsciiIgnore`, which is what the source runs. -/
def specDecodeAsciiReplace (bs : List Nat) : List Char :=
  bs.map (fun b => if b < 128 then Char.ofNat b else Char.ofNat 0xFFFD)

/-- Environment of one `process_log` call: everything the code observes
from the outside world. `sampleDecoded e` is the 50 KB sample decoded
under candidate `e` with `errors='ignore'`; `linesDecoded e` is the list
of lines of the file decoded under encoding `e` with `errors='replace'`. -/
structure Env where
  fileBytes : List Nat
  freeBytes : Nat
  chardetEnc : Option String
  chardetConf : ℚ
  sampleDecoded : String → List Char
  linesDecoded : String → List (List Char)

/-- Python `str.lower()` (used for the ascii normalisation of line 148). -/
def strLower (s : String) : String := String.mk (s.data.map Char.toLower)

/-- `detect_encoding` (lines 117-160): BOM scan first; otherwise the
chardet result (`None` falling back to utf-8, `ascii` normalised to
utf-8); when the confidence is below 0.8, the ranked fallback
`select_best_encoding` decides instead.  Returns the encoding and the
next stop-poll index (polls happen only inside `select_best_encoding`).
I/O failure branches (which default to utf-8) are not modelled: the
environment always supplies the data. -/
def detectEncoding (stop : Nat → Bool) (c : Nat) (env : Env) : String × Nat :=
  match detectBom (env.fileBytes.take 4) with
  | some e => (e, c)
  | none =>
    if env.chardetConf < 4/5 then selectBestEncoding stop env.sampleDecoded c
    else
      let enc0 := env.chardetEnc.getD "utf-8"
      (if strLower enc0 = "ascii" then "utf-8" else enc0, c)

/-- Bytes read from the target file by `detect_encoding`: the 4-byte
header read (line 130), plus the 50000-byte sample read (line 142) when
no BOM matched. -/
def detectBytesRead (bytes : List Nat) : Nat :=
  min 4 bytes.length +
    (if (detectBom (bytes.take 4)).isSome then 0 else min 50000 bytes.length)

/-- Bytes read from the target file before `process_log` reaches the
disk-space check of line 222: the reads of `detect_encoding` (line 207)
plus the full-file read of `count_lines` (line 211, 1 MB chunks until
EOF; the stop flag is assumed unset during the count). -/
def bytesReadBeforeDiskCheck (env : Env) : Nat :=
  detectBytesRead env.fileBytes + env.fileBytes.length

/-- The stop marker string returned at lines 204/237/296. -/
def stoppedMsg : String := "处理已停止"

/-- The insufficient-disk-space error of lines 224-226.  The source
appends the measured free space in MB to the message; the model keeps
only the fixed text. -/
def diskErrMsg : String := "磁盘空间不足"

/-- The all-fallbacks-exhausted error of line 370.  The source appends
the joined candidate list; the model keeps only the fixed text. -/
def exhaustedMsg : String := "所有备选编码均失败"

/-- Outcome of the main line loop of `process_log` (lines 234-270). -/
inductive MainOutcome where
  | stopped
  | fallback (c : Nat)
  | ok (recs : List (List Char))
deriving DecidableEq

/-- The main line loop of `process_log` (lines 234-270): per line, poll
the stop flag; extract via the marker loop; then count lines containing
the replacement character and switch to the backup-encoding path once
more than 100 such lines were seen.  Progress reporting and byte
accounting (lines 241-252) have no effect on the outcome and are
omitted. -/
def mainLoop (stop : Nat → Bool) :
    List (List Char) → Nat → Nat → List (List Char) → MainOutcome
  | [], _, _, acc => .ok acc
  | l :: ls, c, errs, acc =>
    if stop c then .stopped
    else
      if hasRep l then
        if errs + 1 > 100 then .fallback (c + 1)
        else mainLoop stop ls (c + 1) (errs + 1) (extractLine l acc)
      else mainLoop stop ls (c + 1) errs (extractLine l acc)

/-- The per-candidate line loop of `try_backup_encodings`
(lines 317-350): per line, poll the stop flag (break keeps the records
collected so far); a line with the replacement character pushing the
error count above 50 raises (records of this candidate are discarded:
the `aborted` component is true); otherwise run the marker loop.
Returns (records, aborted, next poll index). -/
def backupInner (stop : Nat → Bool) :
    List (List Char) → Nat → Nat → List (List Char) → List (List Char) × Bool × Nat
  | [], c, _, acc => (acc, false, c)
  | l :: ls, c, errs, acc =>
    if stop c then (acc, false, c + 1)
    else
      if hasRep l then
        if errs + 1 > 50 then (acc, true, c + 1)
        else backupInner stop ls (c + 1) (errs + 1) (extractLine l acc)
      else backupInner stop ls (c + 1) errs (extractLine l acc)

/-- The candidate loop of `try_backup_encodings` (lines 305-356): per
candidate, poll the stop flag (break keeps the current best); run the
inner loop; keep the candidate's records when it did not abort and
yielded strictly more records than the best so far. -/
def backupOuter (stop : Nat → Bool) (ld : String → List (List Char)) :
    List String → Nat → List (List Char) → List (List Char) × Nat
  | [], c, best => (best, c)
  | e :: rest, c, best =>
    if stop c then (best, c + 1)
    else
      let r := backupInner stop (ld e) (c + 1) 0 []
      backupOuter stop ld rest r.2.2
        (if r.2.1 = false ∧ r.1.length > best.length then r.1 else best)

/-- The final step of `try_backup_encodings` (lines 363-372): a
non-empty best yields success with no error; otherwise the exhausted
error. -/
def finishBackup (r : List (List Char)) : List (List Char) × Option String :=
  if r.isEmpty then ([], some exhaustedMsg) else (r, none)

/-- `try_backup_encodings` (lines 293-372): entry stop check, candidate
loop over the full fallback list, then the final best check. -/
def tryBackupEncodings (stop : Nat → Bool) (c : Nat)
    (ld : String → List (List Char)) : List (List Char) × Option String :=
  if stop c then ([], some stoppedMsg)
  else finishBackup (backupOuter stop ld backupEncodings (c + 1) []).1

/-- The always-unset stop flag. -/
def noStop : Nat → Bool := fun _ => false

/-- One per-candidate run of `try_backup_encodings` with the stop flag
never set: `none` when the candidate aborted on too many decode errors,
otherwise its extracted records. -/
def runCandidate (ls : List (List Char)) : Option (List (List Char)) :=
  if (backupInner noStop ls 0 0 []).2.1 then none
  else some (backupInner noStop ls 0 0 []).1

/-- `process_log` (lines 201-291): entry stop check (poll 0), encoding
detection, disk-space check (fail fast below 100 MiB), then the main
line loop; the fallback outcome delegates to `try_backup_encodings`.
Large-file classification and progress reporting (lines 209-218,
241-246, 272-275) do not affect the returned records or error and are
omitted; so is the generic I/O exception branch (lines 286-289), since
the environment always supplies the data. -/
def processLog (stop : Nat → Bool) (env : Env) : List (List Char) × Option String :=
  if stop 0 then ([], some stoppedMsg)
  else
    let d := detectEncoding stop 1 env
    if env.freeBytes < 100 * 1024 * 1024 then ([], some diskErrMsg)
    else
      match mainLoop stop (env.linesDecoded d.1) d.2 0 [] with
      | .stopped => ([], some stoppedMsg)
      | .ok recs => (recs, none)
      | .fallback c' => tryBackupEncodings stop c' env.linesDecoded

/-- The worker's per-file status of line 1191:
`"成功" if not error else "失败"` — any truthy (non-`None`, non-empty)
error string is recorded as a failure. -/
def workerStatus (error : Option String) : String :=
  match error with
  | none => "成功"
  | some s => if s = "" then "成功" else "失败"

/-- The seen-set loop of `deduplicate_records` (lines 1298-1303):
arguments are the seen set (a Python `set`, observed only through
membership, so modelled as a list), the output accumulator and the
remaining records. -/
def dedupLoop {α : Type} [DecidableEq α] : List α → List α → List α → List α
  | _, out, [] => out
  | seen, out, r :: rs =>
    if r ∈ seen then dedupLoop seen out rs
    else dedupLoop (r :: seen) (out ++ [r]) rs

/-- One deduplication pass over a record list (`deduplicate_records`,
lines 1296-1307, for a single result). -/
def dedup {α : Type} [DecidableEq α] (rs : List α) : List α := dedupLoop [] [] rs

/-- Proof-auxiliary form of the deduplication loop without the output
accumulator. -/
def ddAux {α : Type} [DecidableEq α] : List α → List α → List α
  | _, [] => []
  | seen, r :: rs => if r ∈ seen then ddAux seen rs else r :: ddAux (r :: seen) rs

/-- A task of the worker queue (lines 1124/1154): either decompress an
archive, or process a file, the latter optionally carrying the source
archive it was extracted from (line 1141). -/
inductive LogTask where
  | extractTask (gzPath : String)
  | processTask (filePath : String) (sourceArchive : Option String)
deriving DecidableEq

/-- Python `os.path.basename` for forward-slash paths. -/
def baseName (s : String) : String := (s.splitOn "/").getLastD s

/-- Python `s.endswith(suf)`. -/
def strEndsWith (s suf : String) : Bool := suf.data.isSuffixOf s.data

/-- Python `s[:-n]` for `0 < n ≤ len(s)`: drop the last `n` characters. -/
def strDropRight (s : String) (n : Nat) : String :=
  String.mk (s.data.take (s.data.length - n))

/-- The member-name computation of `extract_gz_file` (lines 1094-1098):
strip a `.log.gz` suffix and restore `.log`, else strip a `.gz`
suffix. -/
def stripGzName (s : String) : String :=
  if strEndsWith s ".log.gz" then strDropRight s 7 ++ ".log"
  else if strEndsWith s ".gz" then strDropRight s 3
  else s

/-- The extraction target path of `extract_gz_file` (lines 1090-1099):
`<tempDir>/<basename>_extracted/<stripped member name>`. -/
def extractedPath (tempDir gzPath : String) : String :=
  tempDir ++ "/" ++ baseName gzPath ++ "_extracted" ++ "/" ++
    stripGzName (baseName gzPath)

/-- The task the worker enqueues after a successful decompression
(line 1141): process the extracted member, carrying the archive path. -/
def derivedProcessTask (tempDir gzPath : String) : LogTask :=
  .processTask (extractedPath tempDir gzPath) (some gzPath)

/-- The result identity a task's records are stored under (line 1199:
`tree_id = source_archive if source_archive else file_path`). -/
def treeId : LogTask → String
  | .extractTask g => g
  | .processTask fp sa => sa.getD fp

/-- Environment for the C1 counterexample: a one-byte file on a volume
with 50 MiB free. -/
def envC1 : Env :=
  { fileBytes := [65], freeBytes := 50 * 1024 * 1024,
    chardetEnc := some "utf-8", chardetConf := 9/10,
    sampleDecoded := fun _ => [], linesDecoded := fun _ => [] }

/-- Environment for the C2 scenario: a UTF-8 BOM (so detection returns
at the BOM step), one decoded line, ample disk. -/
def envC2 : Env :=
  { fileBytes := [0xEF, 0xBB, 0xBF], freeBytes := 200 * 1024 * 1024,
    chardetEnc := some "utf-8", chardetConf := 1,
    sampleDecoded := fun _ => [], linesDecoded := fun _ => [['a']] }

/-- Environment for the C4 failing input: a file beginning with the
4-byte UTF-32-LE BOM FF FE 00 00. -/
def envC4 : Env :=
  { fileBytes := [0xFF, 0xFE, 0x00, 0x00], freeBytes := 200 * 1024 * 1024,
    chardetEnc := some "utf-8", chardetConf := 1,
    sampleDecoded := fun _ => [], linesDecoded := fun _ => [] }

/-- A sample chat line from the spec's scenario. -/
def sampleChatLine : List Char :=
  "[12:00:00] [Server thread/INFO] [net.minecraft.server.MinecraftServer/]: <Alice> hello".data

/-- A line containing neither log marker. -/
def noPfxLine : List Char := "[12:00:00] [Server thread/WARN]: stalling".data

/-! ## Extraction lemmas (claim C3) -/

theorem extractLine_eq (line : List Char) (accs : List (List Char)) :
    scanPfx pfxList line accs =
      if matchLine line then accs ++ [pyStrip line] else accs := by
  unfold matchLine pfxList scanPfx
  cases h1 : afterFirst pfx1 line with
  | some rest1 =>
    have c1 : containsSub pfx1 line = true := by simp [containsSub, h1]
    simp [List.find?, c1, h1]
  | none =>
    have c1 : containsSub pfx1 line = false := by simp [containsSub, h1]
    cases h2 : afterFirst pfx2 line with
    | some rest2 =>
      have c2 : containsSub pfx2 line = true := by simp [containsSub, h2]
      simp [scanPfx, List.find?, c1, c2, h1, h2]
    | none =>
      have c2 : containsSub pfx2 line = false := by simp [containsSub, h2]
      simp [scanPfx, List.find?, c1, c2, h1, h2]

theorem extractLines_go (lines : List (List Char)) :
    ∀ accs : List (List Char),
      lines.foldl (fun acc l => extractLine l acc) accs =
        accs ++ (lines.filter matchLine).map pyStrip := by
  induction lines with
  | nil => intro accs; simp
  | cons l ls ih =>
    intro accs
    have hstep : extractLine l accs = if matchLine l then accs ++ [pyStrip l] else accs :=
      extractLine_eq l accs
    by_cases hm : matchLine l
    · simp only [List.foldl_cons, hstep, hm, if_pos, List.filter_cons, ih,
        List.map_cons, List.append_assoc, List.cons_append, List.nil_append]
    · simp only [List.foldl_cons, hstep, hm, if_neg, List.filter_cons, ih]
      simp [hm]

/-- Claim C3: for every input line, if the line contains one of the two
fixed markers and the trimmed content after the first matching marker
starts with `<` or `[`, the trimmed original line is appended to the
output exactly once; a line whose first matching marker has content
starting with neither character is not extracted; a line containing
neither marker is never extracted.  The first conjunct states the whole
loop: the output is exactly the stripped matching lines, in order, one
occurrence per matching line. -/
theorem c3_line_extraction :
    (∀ lines, extractLines lines = (lines.filter matchLine).map pyStrip) ∧
    (∀ line p, pfxList.find? (fun q => containsSub q line) = some p →
      ∀ rest, afterFirst p line = some rest →
        ((startsChat (pyStrip rest) = true → extractLine line [] = [pyStrip line]) ∧
         (startsChat (pyStrip rest) = false → extractLine line [] = []))) ∧
    (∀ line, (∀ p ∈ pfxList, containsSub p line = false) →
      extractLine line [] = []) := by
  refine ⟨fun lines => ?_, fun line p hf rest hr => ?_, fun line hnone => ?_⟩
  · simpa using extractLines_go lines []
  · have hm : matchLine line = startsChat (pyStrip rest) := by
      simp [matchLine, hf, hr]
    constructor <;> intro h <;>
      simp [extractLine, extractLine_eq, hm, h]
  · have hf : pfxList.find? (fun q => containsSub q line) = none := by
      refine List.find?_eq_none.mpr fun p hp => ?_
      simp [hnone p hp]
    have hm : matchLine line = false := by simp [matchLine, hf]
    simp [extractLine, extractLine_eq, hm]

/-- Witness for C3 at concrete lines: the spec scenario line is
extracted once, with its first matching marker being the first marker of
the list, and a line with no marker is not extracted. -/
theorem c3_line_extraction_witness :
    extractLines [sampleChatLine] = ([sampleChatLine].filter matchLine).map pyStrip ∧
    extractLine sampleChatLine [] = [pyStrip sampleChatLine] ∧
    extractLine noPfxLine [] = [] :=
  ⟨c3_line_extraction.1 [sampleChatLine],
   (c3_line_extraction.2.1 sampleChatLine pfx1 (by decide)
      (" <Alice> hello".data) (by decide)).1 (by decide),
   c3_line_extraction.2.2 noPfxLine (by decide)⟩

/-! ## Deduplication lemmas (claims C7, C8) -/

theorem dedupLoop_eq {α : Type} [DecidableEq α] (l : List α) :
    ∀ seen out, dedupLoop seen out l = out ++ ddAux seen l := by
  induction l with
  | nil => intro seen out; simp [dedupLoop, ddAux]
  | cons r rs ih =>
    intro seen out
    by_cases h : r ∈ seen
    · simp [dedupLoop, ddAux, h, ih]
    · simp [dedupLoop, ddAux, h, ih]

theorem ddAux_congr {α : Type} [DecidableEq α] (l : List α) :
    ∀ seen seen', (∀ a, a ∈ seen ↔ a ∈ seen') → ddAux seen l = ddAux seen' l := by
  induction l with
  | nil => intro seen seen' _; rfl
  | cons r rs ih =>
    intro seen seen' h
    by_cases hr : r ∈ seen
    · have hr' : r ∈ seen' := (h r).mp hr
      simp [ddAux, hr, hr', ih seen seen' h]
    · have hr' : r ∉ seen' := fun hc => hr ((h r).mpr hc)
      have hext : ∀ a, a ∈ r :: seen ↔ a ∈ r :: seen' := by
        intro a; simp [h a]
      simp [ddAux, hr, hr', ih (r :: seen) (r :: seen') hext]

theorem ddAux_seen_filter {α : Type} [DecidableEq α] (l : List α) :
    ∀ seen r, ddAux (r :: seen) l = ddAux seen (l.filter (fun b => decide (b ≠ r))) := by
  induction l with
  | nil => intro seen r; rfl
  | cons x xs ih =>
    intro seen r
    by_cases hxr : x = r
    · subst hxr
      simp [ddAux, List.filter_cons, ih]
    · by_cases hs : x ∈ seen
      · have : x ∈ r :: seen := List.mem_cons_of_mem _ hs
        simp [ddAux, List.filter_cons, hxr, this, hs, ih]
      · have hx : x ∉ r :: seen := by
          intro hc; rcases List.mem_cons.mp hc with h | h
          · exact hxr h
          · exact hs h
        have hswap : ddAux (x :: r :: seen) xs = ddAux (r :: x :: seen) xs := by
          refine ddAux_congr xs _ _ fun a => ?_
          constructor <;> intro ha <;> simp only [List.mem_cons] at ha ⊢ <;> tauto
        simp only [ddAux, List.filter_cons, hxr, hx, hs, if_neg, decide_not]
        simp only [hswap, ih (x :: seen) r]
        simp [ddAux, hs, hxr]

theorem ddAux_sublist {α : Type} [DecidableEq α] (l : List α) :
    ∀ seen, List.Sublist (ddAux seen l) l := by
  induction l with
  | nil => intro seen; simp [ddAux]
  | cons r rs ih =>
    intro seen
    by_cases h : r ∈ seen
    · simp only [ddAux, h, if_pos]
      exact (ih seen).cons r
    · simp only [ddAux, h, if_neg, not_false_iff]
      exact (ih (r :: seen)).cons₂ r

theorem ddAux_mem {α : Type} [DecidableEq α] (l : List α) :
    ∀ seen a, a ∈ ddAux seen l ↔ a ∈ l ∧ a ∉ seen := by
  induction l with
  | nil => intro seen a; simp [ddAux]
  | cons r rs ih =>
    intro seen a
    by_cases h : r ∈ seen
    · simp only [ddAux, h, if_pos, ih, List.mem_cons]
      by_cases har : a = r
      · subst har; simp [h]
      · simp [har]
    · simp only [ddAux, h, if_neg, not_false_iff, List.mem_cons, ih]
      by_cases har : a = r
      · subst har; simp [h]
      · simp [har]

theorem ddAux_nodup {α : Type} [DecidableEq α] (l : List α) :
    ∀ seen, (ddAux seen l).Nodup := by
  induction l with
  | nil => intro seen; simp [ddAux]
  | cons r rs ih =>
    intro seen
    by_cases h : r ∈ seen
    · simp only [ddAux, h, if_pos]; exact ih seen
    · simp only [ddAux, h, if_neg, not_false_iff]
      refine List.nodup_cons.mpr ⟨fun hc => ?_, ih (r :: seen)⟩
      exact ((ddAux_mem rs (r :: seen) r).mp hc).2 (List.mem_cons_self r seen)

theorem ddAux_of_nodup {α : Type} [DecidableEq α] (l : List α) :
    ∀ seen, l.Nodup → (∀ a ∈ l, a ∉ seen) → ddAux seen l = l := by
  induction l with
  | nil => intro seen _ _; rfl
  | cons r rs ih =>
    intro seen hnd hdisj
    have hr : r ∉ seen := hdisj r (List.mem_cons_self r rs)
    have hnd' := List.nodup_cons.mp hnd
    simp only [ddAux, hr, if_neg, not_false_iff]
    congr 1
    refine ih (r :: seen) hnd'.2 fun a ha => ?_
    intro hc
    rcases List.mem_cons.mp hc with hc | hc
    · exact hnd'.1 (hc ▸ ha)
    · exact hdisj a (List.mem_cons_of_mem _ ha) hc

theorem dedup_eq_ddAux {α : Type} [DecidableEq α] (l : List α) :
    dedup l = ddAux [] l := by
  simp [dedup, dedupLoop_eq]

/-- Claim C7: one deduplication pass is idempotent — applying it twice
yields the same record list as applying it once. -/
theorem c7_dedup_idempotent {α : Type} [DecidableEq α] (l : List α) :
    dedup (dedup l) = dedup l := by
  rw [dedup_eq_ddAux, dedup_eq_ddAux l]
  exact ddAux_of_nodup _ [] (ddAux_nodup l []) (by simp)

/-- Claim C8: the deduplicated output is a subsequence of the input,
has no duplicates, contains exactly the distinct records of the input,
and keeps the first occurrence of each record (the recursive equation:
the head survives and later copies of it are removed before the rest is
deduplicated). -/
theorem c8_dedup_first_occurrence {α : Type} [DecidableEq α] (l : List α) (a : α) :
    List.Sublist (dedup l) l ∧ (dedup l).Nodup ∧ (∀ x, x ∈ dedup l ↔ x ∈ l) ∧
    dedup (a :: l) = a :: dedup (l.filter (fun b => decide (b ≠ a))) := by
  refine ⟨?_, ?_, ?_, ?_⟩
  · rw [dedup_eq_ddAux]; exact ddAux_sublist l []
  · rw [dedup_eq_ddAux]; exact ddAux_nodup l []
  · intro x; rw [dedup_eq_ddAux]; simp [ddAux_mem]
  · rw [dedup_eq_ddAux, dedup_eq_ddAux]
    simp only [ddAux, List.not_mem_nil, if_neg, not_false_iff]
    congr 1
    exact ddAux_seen_filter l [] a

/-! ## Worker attribution (claim C9) and BOM detection (claim C4) -/

/-- Claim C9: the task the worker enqueues for an archive member carries
the archive path as its source archive; the identity records are stored
under is the source archive whenever one is set, never the extracted
path; and the member extracted from `chat.log.gz` is named `chat.log`
while its result is stored under `chat.log.gz`. -/
theorem c9_archive_attribution (tempDir gzPath : String) :
    derivedProcessTask tempDir gzPath =
      LogTask.processTask (extractedPath tempDir gzPath) (some gzPath) ∧
    (∀ fp a, treeId (LogTask.processTask fp (some a)) = a) ∧
    stripGzName "chat.log.gz" = "chat.log" ∧
    treeId (derivedProcessTask "/tmp/minecraft_logs_x" "chat.log.gz") = "chat.log.gz" :=
  ⟨rfl, fun _ _ => rfl, by decide, rfl⟩

/-- Claim C4 (code bug): a file whose first four bytes are the UTF-32-LE
BOM FF FE 00 00 is detected as `utf-16-le`, not `utf-32-le`: the 2-byte
UTF-16-LE BOM is tested earlier in dict order and matches first, so the
`utf-32-le` table entry is unreachable. -/
theorem c4_utf32le_bom_detected_as_utf16le :
    detectBom [0xFF, 0xFE, 0x00, 0x00] = some "utf-16-le" ∧
    (detectEncoding noStop 1 envC4).1 = "utf-16-le" ∧
    "utf-16-le" ≠ "utf-32-le" :=
  ⟨by decide, by decide, by decide⟩

/-! ## Disk-space precheck (claim C1) -/

/-- Claim C1 as amended: whenever free space is below 100 MiB (and the
stop flag is not set at entry), `process_log` returns the
insufficient-disk-space error with no records — but encoding detection
and line counting have already read the file before the check, so for a
non-empty file the number of bytes read before the check is not zero. -/
theorem c1_disk_check_after_reads (stop : Nat → Bool) (env : Env)
    (h0 : stop 0 = false) (hfree : env.freeBytes < 100 * 1024 * 1024) :
    processLog stop env = ([], some diskErrMsg) ∧
    (env.fileBytes ≠ [] → bytesReadBeforeDiskCheck env ≠ 0) := by
  constructor
  · simp [processLog, h0, hfree]
  · intro hne
    have hlen : env.fileBytes.length ≠ 0 := by
      simpa using fun hc => hne (List.length_eq_zero.mp hc)
    simp only [bytesReadBeforeDiskCheck]
    omega

/-- Witness for C1 (amended) at the concrete one-byte environment. -/
theorem c1_disk_check_after_reads_witness :
    processLog noStop envC1 = ([], some diskErrMsg) ∧
    bytesReadBeforeDiskCheck envC1 ≠ 0 :=
  ⟨(c1_disk_check_after_reads noStop envC1 rfl (by decide)).1,
   (c1_disk_check_after_reads noStop envC1 rfl (by decide)).2 (by decide)⟩

/-- Counterexample to C1 as stated: with 50 MiB free and a one-byte
file, `process_log` does return the insufficient-disk-space error, but
three bytes have been read from the file before the check (one by the
BOM read, one by the chardet sample read, one by the line count), not
zero. -/
theorem c1_counterexample :
    processLog noStop envC1 = ([], some diskErrMsg) ∧
    envC1.freeBytes < 100 * 1024 * 1024 ∧
    bytesReadBeforeDiskCheck envC1 = 3 ∧ bytesReadBeforeDiskCheck envC1 ≠ 0 :=
  ⟨by decide, by decide, by decide, by decide⟩

/-! ## Cancellation during extraction (claim C2) -/

theorem mainLoop_stops (stop : Nat → Bool) :
    ∀ (ls : List (List Char)) (k c errs : Nat) (acc : List (List Char)),
      k < ls.length → (∀ i, i < k → stop (c + i) = false) → stop (c + k) = true →
      errs + (ls.take k).countP hasRep ≤ 100 →
      mainLoop stop ls c errs acc = .stopped := by
  intro ls
  induction ls with
  | nil => intro k c errs acc hk _ _ _; exact absurd hk (by simp)
  | cons l t ih =>
    intro k c errs acc hk hf ht hb
    cases k with
    | zero =>
      have hc : stop c = true := by simpa using ht
      simp [mainLoop, hc]
    | succ k =>
      have hc : stop c = false := by simpa using hf 0 (Nat.succ_pos k)
      have hk' : k < t.length := by simpa [Nat.succ_lt_succ_iff] using hk
      have hf' : ∀ i, i < k → stop (c + 1 + i) = false := by
        intro i hi
        have h := hf (i + 1) (by omega)
        rwa [show c + (i + 1) = c + 1 + i by omega] at h
      have ht' : stop (c + 1 + k) = true := by
        rwa [show c + (k + 1) = c + 1 + k by omega] at ht
      cases hrep : hasRep l with
      | true =>
        simp only [List.take_succ_cons, List.countP_cons, hrep, if_true] at hb
        have hb1 : ¬ errs + 1 > 100 := by omega
        have hb' : (errs + 1) + (t.take k).countP hasRep ≤ 100 := by omega
        simp only [mainLoop, hc, hrep, if_neg hb1, Bool.false_eq_true, if_false, if_true]
        exact ih k (c + 1) (errs + 1) (extractLine l acc) hk' hf' ht' hb'
      | false =>
        simp only [List.take_succ_cons, List.countP_cons, hrep, if_false] at hb
        have hb' : errs + (t.take k).countP hasRep ≤ 100 := by omega
        simp only [mainLoop, hc, hrep, Bool.false_eq_true, if_false]
        exact ih k (c + 1) errs (extractLine l acc) hk' hf' ht' hb'

/-- Claim C2 as amended: when the stop flag becomes set at the poll of
some line of the extraction loop (having been unset at entry and at all
earlier line polls, with the decode-error count not yet over the
threshold), `process_log` returns immediately with an empty record list
and the stopped marker — but the worker records this outcome as a
failure, because the stopped marker is a truthy error string and the
worker maps every such error to the failure status. -/
theorem c2_stop_returns_but_marked_failed (stop : Nat → Bool) (env : Env) (k : Nat)
    (h0 : stop 0 = false)
    (hfree : ¬ env.freeBytes < 100 * 1024 * 1024)
    (hk : k < (env.linesDecoded (detectEncoding stop 1 env).1).length)
    (hfalse : ∀ i, i < k → stop ((detectEncoding stop 1 env).2 + i) = false)
    (htrue : stop ((detectEncoding stop 1 env).2 + k) = true)
    (hbound : ((env.linesDecoded (detectEncoding stop 1 env).1).take k).countP hasRep ≤ 100) :
    processLog stop env = ([], some stoppedMsg) ∧
    workerStatus (some stoppedMsg) = "失败" ∧
    workerStatus none = "成功" := by
  have hm := mainLoop_stops stop (env.linesDecoded (detectEncoding stop 1 env).1) k
    (detectEncoding stop 1 env).2 0 [] hk hfalse htrue (by simpa using hbound)
  refine ⟨?_, by decide, rfl⟩
  simp [processLog, h0, hfree, hm]

/-- Witness for C2 (amended): in the concrete environment, the flag set
from poll 1 on (the first line poll) makes `process_log` return the
stopped marker, which the worker maps to the failure status. -/
theorem c2_stop_returns_but_marked_failed_witness :
    processLog (fun i => decide (1 ≤ i)) envC2 = ([], some stoppedMsg) ∧
    workerStatus (some stoppedMsg) = "失败" :=
  ⟨(c2_stop_returns_but_marked_failed (fun i => decide (1 ≤ i)) envC2 0
      (by decide) (by decide) (by decide)
      (fun i hi => absurd hi (by omega)) (by decide) (by decide)).1,
   (c2_stop_returns_but_marked_failed (fun i => decide (1 ≤ i)) envC2 0
      (by decide) (by decide) (by decide)
      (fun i hi => absurd hi (by omega)) (by decide) (by decide)).2.1⟩

/-- Counterexample to C2 as stated: a stopped run does return the empty
record list with the stopped marker, but the worker's per-file status
for it is the failure string, not the success string — the stopped
outcome is recorded as a failure. -/
theorem c2_counterexample :
    processLog (fun i => decide (1 ≤ i)) envC2 = ([], some stoppedMsg) ∧
    workerStatus (some stoppedMsg) = "失败" ∧ "失败" ≠ "成功" :=
  ⟨by decide, by decide, by decide⟩

/-! ## Ranked fallback selection (claim C5) -/

theorem scoreOf_nonneg (d : List Char) : 0 ≤ scoreOf d := by
  unfold scoreOf
  refine add_nonneg ?_ ?_
  · by_cases h : d.isEmpty <;> simp [h]
    positivity
  · by_cases h : pfxList.any (fun p => containsSub p d) <;> simp [h]
    norm_num

theorem selectLoop_noStop_max (sd : String → List Char) :
    ∀ (encs : List String) (c : Nat) (best : String) (bs : ℚ),
      bs ≤ candScore sd best →
      bs ≤ candScore sd (selectLoop noStop sd c encs best bs).1 ∧
      ∀ e ∈ encs, candScore sd e ≤ candScore sd (selectLoop noStop sd c encs best bs).1 := by
  intro encs
  induction encs with
  | nil => intro c best bs h; exact ⟨h, by simp⟩
  | cons e rest ih =>
    intro c best bs h
    simp only [selectLoop, noStop, Bool.false_eq_true, if_false]
    by_cases hgt : scoreOf (sd e) > bs
    · simp only [hgt, if_pos]
      have hrec := ih (c + 1) e (scoreOf (sd e)) (le_of_eq rfl)
      refine ⟨le_trans (le_of_lt hgt) hrec.1, fun x hx => ?_⟩
      rcases List.mem_cons.mp hx with hx | hx
      · subst hx; exact hrec.1
      · exact hrec.2 x hx
    · simp only [hgt, if_neg, not_false_iff, if_false]
      have hrec := ih (c + 1) best bs h
      refine ⟨hrec.1, fun x hx => ?_⟩
      rcases List.mem_cons.mp hx with hx | hx
      · subst hx
        exact le_trans (le_of_not_lt hgt) hrec.1
      · exact hrec.2 x hx

theorem selectLoop_noStop_default (sd : String → List Char) :
    ∀ (encs : List String) (c : Nat) (best : String) (bs : ℚ),
      (∀ e ∈ encs, candScore sd e ≤ bs) →
      (selectLoop noStop sd c encs best bs).1 = best := by
  intro encs
  induction encs with
  | nil => intro c best bs _; rfl
  | cons e rest ih =>
    intro c best bs h
    have he : candScore sd e ≤ bs := h e (List.mem_cons_self e rest)
    have hgt : ¬ scoreOf (sd e) > bs := not_lt_of_le he
    simp only [selectLoop, noStop, Bool.false_eq_true, if_false, hgt, if_neg, not_false_iff]
    exact ih (c + 1) best bs fun x hx => h x (List.mem_cons_of_mem _ hx)

theorem selectLoop_noStop_winner (sd : String → List Char) :
    ∀ (encs : List String) (c : Nat) (best : String) (bs : ℚ),
      (selectLoop noStop sd c encs best bs).1 = best ∨
      ∃ pre e post, encs = pre ++ e :: post ∧
        (selectLoop noStop sd c encs best bs).1 = e ∧
        bs < candScore sd e ∧
        ∀ x ∈ pre, candScore sd x < candScore sd e := by
  intro encs
  induction encs with
  | nil => intro c best bs; exact Or.inl rfl
  | cons e rest ih =>
    intro c best bs
    simp only [selectLoop, noStop, Bool.false_eq_true, if_false]
    by_cases hgt : scoreOf (sd e) > bs
    · simp only [hgt, if_pos]
      rcases ih (c + 1) e (scoreOf (sd e)) with hl | ⟨pre, w, post, hdec, hres, hlt, hpre⟩
      · refine Or.inr ⟨[], e, rest, rfl, hl, hgt, by simp⟩
      · refine Or.inr ⟨e :: pre, w, post, by simp [hdec], hres, lt_trans hgt hlt, ?_⟩
        intro x hx
        rcases List.mem_cons.mp hx with hx | hx
        · subst hx; exact hlt
        · exact hpre x hx
    · simp only [hgt, if_neg, not_false_iff, if_false]
      rcases ih (c + 1) best bs with hl | ⟨pre, w, post, hdec, hres, hlt, hpre⟩
      · exact Or.inl hl
      · refine Or.inr ⟨e :: pre, w, post, by simp [hdec], hres, hlt, ?_⟩
        intro x hx
        rcases List.mem_cons.mp hx with hx | hx
        · subst hx; exact lt_of_le_of_lt (le_of_not_lt hgt) hlt
        · exact hpre x hx

/-- Claim C5 as amended: `select_best_encoding` decodes each candidate
permissively with invalid bytes dropped (`errors='ignore'`, never
raising — the decoded samples enter through `sd`), scores as the
printable ratio plus 0.3 for a marker hit, and returns the
highest-scoring candidate, ties kept by the first encountered in list
order (every strictly earlier candidate scores strictly lower), with
`utf-8` returned when no candidate scores above 0. -/
theorem c5_select_best_encoding (sd : String → List Char) :
    (∀ e ∈ backupEncodings,
      candScore sd e ≤ candScore sd (selectBestEncoding noStop sd 0).1) ∧
    ((∀ e ∈ backupEncodings, candScore sd e ≤ 0) →
      (selectBestEncoding noStop sd 0).1 = "utf-8") ∧
    (∃ pre post, backupEncodings = pre ++ (selectBestEncoding noStop sd 0).1 :: post ∧
      ∀ x ∈ pre, candScore sd x < candScore sd (selectBestEncoding noStop sd 0).1) := by
  refine ⟨?_, ?_, ?_⟩
  · exact (selectLoop_noStop_max sd backupEncodings 0 "utf-8" 0
      (scoreOf_nonneg _)).2
  · intro h
    exact selectLoop_noStop_default sd backupEncodings 0 "utf-8" 0 h
  · rcases selectLoop_noStop_winner sd backupEncodings 0 "utf-8" 0 with hl | hw
    · refine ⟨[], backupEncodings.tail, ?_, by simp⟩
      rw [show (selectBestEncoding noStop sd 0).1 = "utf-8" from hl]
      rfl
    · rcases hw with ⟨pre, w, post, hdec, hres, _, hpre⟩
      have hres' : (selectBestEncoding noStop sd 0).1 = w := hres
      refine ⟨pre, post, by rw [hres', hdec], fun x hx => ?_⟩
      rw [hres']
      exact hpre x hx

/-- Witness for C5 (amended): with every candidate decoding to the empty
sample, every score is 0 and the selection returns `utf-8`, which also
attains the maximal score. -/
theorem c5_select_best_encoding_witness :
    (selectBestEncoding noStop (fun _ => []) 0).1 = "utf-8" ∧
    candScore (fun _ => []) "gbk" ≤
      candScore (fun _ => []) (selectBestEncoding noStop (fun _ => []) 0).1 := by
  have hb : (pfxList.any fun p => containsSub p ([] : List Char)) = false := by decide
  have h0 : ∀ e, candScore (fun _ => ([] : List Char)) e = 0 := by
    intro e; simp [candScore, scoreOf, hb]
  refine ⟨(c5_select_best_encoding (fun _ => [])).2.1 fun e _ => le_of_eq (h0 e), ?_⟩
  exact (c5_select_best_encoding (fun _ => [])).1 "gbk" (by decide)

/-- Counterexample to C5 as stated: the source decodes with
`errors='ignore'`, not with invalid bytes replaced.  On the sample
41 01 FF under the `ascii` candidate, ignore-mode decoding drops the
invalid byte and yields score 1/2, while the replacement-mode decoding
the claim describes yields score 2/3. -/
theorem c5_counterexample :
    pyDecodeAsciiIgnore [65, 1, 255] ≠ specDecodeAsciiReplace [65, 1, 255] ∧
    scoreOf (pyDecodeAsciiIgnore [65, 1, 255]) = 1/2 ∧
    scoreOf (specDecodeAsciiReplace [65, 1, 255]) = 2/3 ∧
    (1 : ℚ)/2 ≠ 2/3 := by
  refine ⟨by decide, ?_, ?_, by norm_num⟩
  · simp [scoreOf, pyDecodeAsciiIgnore, printableish, pyIsPrintable,
      pfxList, pfx1, pfx2, containsSub, afterFirst]
  · simp [scoreOf, specDecodeAsciiReplace, printableish, pyIsPrintable,
      pfxList, pfx1, pfx2, containsSub, afterFirst]


/-! ## Backup encodings (claims C6, C10) -/

theorem backupInner_counter_irrel :
    ∀ (ls : List (List Char)) (c c' errs : Nat) (acc : List (List Char)),
      (backupInner noStop ls c errs acc).1 = (backupInner noStop ls c' errs acc).1 ∧
      (backupInner noStop ls c errs acc).2.1 = (backupInner noStop ls c' errs acc).2.1 := by
  intro ls
  induction ls with
  | nil => intro c c' errs acc; exact ⟨rfl, rfl⟩
  | cons l t ih =>
    intro c c' errs acc
    simp only [backupInner, noStop, Bool.false_eq_true, if_false]
    cases hrep : hasRep l with
    | true =>
      by_cases hth : errs + 1 > 50
      · simp [hth]
      · simp only [hth, if_neg, not_false_iff, if_false]
        exact ih (c + 1) (c' + 1) (errs + 1) (extractLine l acc)
    | false => exact ih (c + 1) (c' + 1) errs (extractLine l acc)

theorem runCandidate_of_inner (ls : List (List Char)) (c : Nat) :
    ((backupInner noStop ls c 0 []).2.1 = false →
      runCandidate ls = some (backupInner noStop ls c 0 []).1) ∧
    ((backupInner noStop ls c 0 []).2.1 = true → runCandidate ls = none) := by
  have h := backupInner_counter_irrel ls 0 c 0 []
  constructor
  · intro hf
    have ha : (backupInner noStop ls 0 0 []).2.1 = false := h.2.trans hf
    unfold runCandidate
    rw [ha, if_neg (by simp), h.1]
  · intro ht
    have ha : (backupInner noStop ls 0 0 []).2.1 = true := h.2.trans ht
    unfold runCandidate
    rw [ha, if_pos rfl]

theorem backupOuter_noStop_spec (ld : String → List (List Char)) :
    ∀ (encs : List String) (c : Nat) (best : List (List Char)),
      best.length ≤ (backupOuter noStop ld encs c best).1.length ∧
      (∀ e ∈ encs, ∀ rs, runCandidate (ld e) = some rs →
        rs.length ≤ (backupOuter noStop ld encs c best).1.length) ∧
      ((backupOuter noStop ld encs c best).1 = best ∨
        ∃ pre e post, encs = pre ++ e :: post ∧
          runCandidate (ld e) = some (backupOuter noStop ld encs c best).1 ∧
          best.length < (backupOuter noStop ld encs c best).1.length ∧
          ∀ x ∈ pre, ∀ rs, runCandidate (ld x) = some rs →
            rs.length < (backupOuter noStop ld encs c best).1.length) := by
  intro encs
  induction encs with
  | nil =>
    intro c best
    exact ⟨le_refl _, by simp, Or.inl rfl⟩
  | cons e rest ih =>
    intro c best
    have hstep : backupOuter noStop ld (e :: rest) c best =
        backupOuter noStop ld rest (backupInner noStop (ld e) (c + 1) 0 []).2.2
          (if (backupInner noStop (ld e) (c + 1) 0 []).2.1 = false ∧
              (backupInner noStop (ld e) (c + 1) 0 []).1.length > best.length
            then (backupInner noStop (ld e) (c + 1) 0 []).1 else best) := by
      simp only [backupOuter, noStop, Bool.false_eq_true, if_false]
    set r := backupInner noStop (ld e) (c + 1) 0 [] with hr
    by_cases hupd : r.2.1 = false ∧ r.1.length > best.length
    · rw [hstep, if_pos hupd]
      have hcand : runCandidate (ld e) = some r.1 :=
        (runCandidate_of_inner (ld e) (c + 1)).1 hupd.1
      have hrec := ih r.2.2 r.1
      refine ⟨le_trans (le_of_lt hupd.2) hrec.1, ?_, ?_⟩
      · intro x hx rs hrs
        rcases List.mem_cons.mp hx with hx | hx
        · subst hx
          have hrseq : rs = r.1 := (Option.some.inj (hcand.symm.trans hrs)).symm
          exact hrseq ▸ hrec.1
        · exact hrec.2.1 x hx rs hrs
      · rcases hrec.2.2 with hl | ⟨pre, w, post, hdec, hwin, hlen, hpre⟩
        · refine Or.inr ⟨[], e, rest, rfl, by rw [hl]; exact hcand, ?_, by simp⟩
          rw [hl]; exact hupd.2
        · refine Or.inr ⟨e :: pre, w, post, by simp [hdec], hwin, lt_trans hupd.2 hlen, ?_⟩
          intro x hx rs hrs
          rcases List.mem_cons.mp hx with hx | hx
          · subst hx
            have hrseq : rs = r.1 := (Option.some.inj (hcand.symm.trans hrs)).symm
            exact hrseq ▸ hlen
          · exact hpre x hx rs hrs
    · rw [hstep, if_neg hupd]
      have hrec := ih r.2.2 best
      have hbound : ∀ rs, runCandidate (ld e) = some rs → rs.length ≤ best.length := by
        intro rs hrs
        have hab : r.2.1 = false := by
          cases hab : r.2.1 with
          | true => exact absurd ((runCandidate_of_inner (ld e) (c + 1)).2 hab) (by simp [hrs])
          | false => rfl
        have hcand : runCandidate (ld e) = some r.1 :=
          (runCandidate_of_inner (ld e) (c + 1)).1 hab
        have hrseq : rs = r.1 := (Option.some.inj (hcand.symm.trans hrs)).symm
        have hnot : ¬ r.1.length > best.length := by
          rcases not_and_or.mp hupd with hc | hc
          · exact absurd hab hc
          · exact hc
        rw [hrseq]
        exact le_of_not_lt hnot
      refine ⟨hrec.1, ?_, ?_⟩
      · intro x hx rs hrs
        rcases List.mem_cons.mp hx with hx | hx
        · subst hx
          exact le_trans (hbound rs hrs) hrec.1
        · exact hrec.2.1 x hx rs hrs
      · rcases hrec.2.2 with hl | ⟨pre, w, post, hdec, hwin, hlen, hpre⟩
        · exact Or.inl hl
        · refine Or.inr ⟨e :: pre, w, post, by simp [hdec], hwin, hlen, ?_⟩
          intro x hx rs hrs
          rcases List.mem_cons.mp hx with hx | hx
          · subst hx
            exact lt_of_le_of_lt (hbound rs hrs) hlen
          · exact hpre x hx rs hrs

theorem finishBackup_length (r : List (List Char)) :
    (finishBackup r).1.length = r.length := by
  cases r <;> simp [finishBackup]

theorem finishBackup_of_ne (r : List (List Char)) (h : r ≠ []) :
    finishBackup r = (r, none) := by
  cases r with
  | nil => exact absurd rfl h
  | cons a t => simp [finishBackup]

theorem tryBackup_noStop_eq (ld : String → List (List Char)) :
    tryBackupEncodings noStop 0 ld =
      finishBackup (backupOuter noStop ld backupEncodings 1 []).1 := by
  simp [tryBackupEncodings, noStop]

/-- Claim C6: `try_backup_encodings` (candidate loop in the fixed list
order, inner error threshold 50) returns a record list at least as long
as that of every candidate that completed; when no candidate yields any
record it fails with the exhausted-fallbacks error; and on success the
result is the earliest candidate attaining its record count (all
strictly earlier completing candidates yield strictly fewer records). -/
theorem c6_backup_monotone (ld : String → List (List Char)) :
    (∀ e ∈ backupEncodings, ∀ rs, runCandidate (ld e) = some rs →
      rs.length ≤ (tryBackupEncodings noStop 0 ld).1.length) ∧
    ((∀ e ∈ backupEncodings, runCandidate (ld e) = none ∨ runCandidate (ld e) = some []) →
      tryBackupEncodings noStop 0 ld = ([], some exhaustedMsg)) ∧
    ((tryBackupEncodings noStop 0 ld).2 = none →
      ∃ pre e post, backupEncodings = pre ++ e :: post ∧
        runCandidate (ld e) = some (tryBackupEncodings noStop 0 ld).1 ∧
        ∀ x ∈ pre, ∀ rs, runCandidate (ld x) = some rs →
          rs.length < (tryBackupEncodings noStop 0 ld).1.length) := by
  have hspec := backupOuter_noStop_spec ld backupEncodings 1 []
  have htb := tryBackup_noStop_eq ld
  refine ⟨?_, ?_, ?_⟩
  · intro e he rs hrs
    rw [htb, finishBackup_length]
    exact hspec.2.1 e he rs hrs
  · intro h
    have hRnil : (backupOuter noStop ld backupEncodings 1 []).1 = [] := by
      rcases hspec.2.2 with hl | ⟨pre, w, post, hdec, hwin, hlen, _⟩
      · exact hl
      · have hwmem : w ∈ backupEncodings := by
          rw [hdec]; exact List.mem_append.mpr (Or.inr (List.mem_cons_self _ _))
        rcases h w hwmem with hn | hs
        · rw [hn] at hwin; cases hwin
        · rw [hs] at hwin
          have hwe := Option.some.inj hwin
          rw [← hwe] at hlen
          simp at hlen
    rw [htb, hRnil]
    simp [finishBackup]
  · intro h2
    have hRne : (backupOuter noStop ld backupEncodings 1 []).1 ≠ [] := by
      intro hnil
      rw [htb, hnil] at h2
      simp [finishBackup] at h2
    rcases hspec.2.2 with hl | ⟨pre, w, post, hdec, hwin, _, hpre⟩
    · exact absurd hl hRne
    · refine ⟨pre, w, post, hdec, ?_, ?_⟩
      · rw [htb, finishBackup_of_ne _ hRne]
        exact hwin
      · intro x hx rs hrs
        rw [htb, finishBackup_of_ne _ hRne]
        exact hpre x hx rs hrs

/-- Witness for C6: when every candidate completes with zero records,
the function returns the empty list with the exhausted-fallbacks
error. -/
theorem c6_backup_monotone_witness :
    tryBackupEncodings noStop 0 (fun _ => []) = ([], some exhaustedMsg) :=
  (c6_backup_monotone (fun _ => [])).2.1 (fun _ _ => Or.inr rfl)

/-- Claim C10: if the stop flag is observed at a candidate poll of the
backup loop while the best record list accumulated from earlier
candidates is non-empty, the loop exits with that best list unchanged,
and the final step returns it with no error — an ordinary success, not
the stopped marker. -/
theorem c10_stop_returns_partial_best (stop : Nat → Bool)
    (ld : String → List (List Char)) (encs : List String) (c : Nat)
    (best : List (List Char)) (hstop : stop c = true) (hne : best ≠ []) :
    (backupOuter stop ld encs c best).1 = best ∧
    finishBackup (backupOuter stop ld encs c best).1 = (best, none) ∧
    (finishBackup (backupOuter stop ld encs c best).1).2 ≠ some stoppedMsg := by
  have h1 : (backupOuter stop ld encs c best).1 = best := by
    cases encs with
    | nil => rfl
    | cons e rest => simp [backupOuter, hstop]
  have h2 : finishBackup best = (best, none) := finishBackup_of_ne best hne
  refine ⟨h1, by rw [h1, h2], by rw [h1, h2]; simp⟩

/-- Witness for C10: the flag set everywhere, with a one-record best
already accumulated, yields that record list with no error. -/
theorem c10_stop_returns_partial_best_witness :
    (backupOuter (fun _ => true) (fun _ => []) backupEncodings 0 [['x']]).1 = [['x']] ∧
    finishBackup (backupOuter (fun _ => true) (fun _ => []) backupEncodings 0 [['x']]).1 =
      ([['x']], none) :=
  ⟨(c10_stop_returns_partial_best (fun _ => true) (fun _ => []) backupEncodings 0 [['x']]
      rfl (by simp)).1,
   (c10_stop_returns_partial_best (fun _ => true) (fun _ => []) backupEncodings 0 [['x']]
      rfl (by simp)).2.1⟩
